import Mathlib

/-!
# Verification of the mccfilereader NBT decoders

This file gives a shallow embedding of the NBT (Named Binary Tag) decoding
logic of the repository's Python scripts and proves, or refutes, the frozen
claims about it.

Embedded code:

* `complete_mcc_reader.py` / `snowball_timeline.py`, class `NBTReader`:
  the two classes are byte-for-byte identical except that
  `complete_mcc_reader`'s `read_tag` ends in
  `raise ValueError(f"Unknown tag type: ...")` while `snowball_timeline`'s
  `read_tag` has no `else` branch and falls through (returning `None`).
  The embedding `read_tag strict ...` carries that single difference in the
  `strict` flag: `strict = true` is `complete_mcc_reader`,
  `strict = false` is `snowball_timeline`.
* `find_owner.py`, class `DetailedNBTReader`: the helpers `read_ubyte`,
  `read_int`, `read_long`, `read_string` coincide with `NBTReader`'s; the
  embedding shares them.  `skip_tag` / `skip_compound` are embedded as
  `skip_tag` / `skip_compound`.

Modeling conventions:

* A `BytesIO` stream in the forward-only discipline of the source is the
  list of bytes not yet consumed (`List Nat`, each entry `< 256` for real
  buffers).  `stream.read(n)` is `pyRead`: it returns *up to* `n` bytes and
  never fails; with a negative `n` CPython's `BytesIO.read` returns all
  remaining bytes.
* `struct.unpack` demands the exact byte count and raises `struct.error`
  otherwise (`PyErr.structError`); `struct.unpack` of `>b/>h/>i/>q` is
  `readSigned`, of `>B/>H` big-endian unsigned is `unpackBE`.
* Python `float` values produced by `>f`/`>d` are represented by the raw
  big-endian bit pattern of their payload bytes (IEEE semantics are out of
  scope; the representation is injective and faithful for every claim here).
* Python's unbounded recursion is modeled with an explicit fuel parameter;
  `PyErr.outOfFuel` marks exhaustion of that modeling artifact only.  Every
  positive theorem below supplies sufficient fuel explicitly, so `outOfFuel`
  never appears in a conclusion about the code's behavior.
* `str.decode('utf-8', errors='replace')` is `utf8DecodeReplace`, the
  W3C/WHATWG "maximal subpart" substitution algorithm implemented by
  CPython: each maximal ill-formed subsequence becomes one U+FFFD.
* Python `dict` assignment `result[name] = value` is `dictInsert`: an
  existing key keeps its position and gets the new value, a new key is
  appended.
-/

/-- Python-level failure outcomes of the decoder.  `structError` is
`struct.error` from `struct.unpack` on a short read; `unknownTag` is the
`ValueError(f"Unknown tag type: ...")` of `complete_mcc_reader.read_tag`;
`outOfFuel` is the fuel-exhaustion artifact of the embedding (never the
behavior of the code, see the module docstring). -/
inductive PyErr : Type where
  | structError : PyErr
  | unknownTag (code : Nat) : PyErr
  | outOfFuel : PyErr
deriving DecidableEq

/-- The Python values produced by `NBTReader`: `None`, `int`, `float`
(kept as the raw bit pattern of its payload), `str` (a list of Unicode
code points), `list`, and insertion-ordered `dict`. -/
inductive PyVal : Type where
  | none : PyVal
  | int (v : Int) : PyVal
  | float32 (bits : Nat) : PyVal
  | float64 (bits : Nat) : PyVal
  | str (cs : List Nat) : PyVal
  | list (xs : List PyVal) : PyVal
  | dict (entries : List (List Nat × PyVal)) : PyVal

/-- `BytesIO.read(n)` on the remaining bytes `s`: returns the bytes read and
the rest of the stream.  A negative size reads to the end of the stream;
otherwise at most `n` bytes are returned (fewer at end of stream), never an
error. -/
def pyRead (s : List Nat) (n : Int) : List Nat × List Nat :=
  if n < 0 then (s, []) else (s.take n.toNat, s.drop n.toNat)

/-- Big-endian value of a byte list. -/
def beNat (bs : List Nat) : Nat :=
  bs.foldl (fun acc b => acc * 256 + b) 0

/-- `struct.unpack` of a `w`-byte big-endian unsigned field: reads exactly
`w` bytes or raises `struct.error`. -/
def unpackBE (w : Nat) (s : List Nat) : Except PyErr (Nat × List Nat) :=
  let p := pyRead s (w : Int)
  if p.1.length = w then .ok (beNat p.1, p.2) else .error .structError

/-- Two's-complement reinterpretation of a `bits`-wide unsigned value, as
done by `struct.unpack` for the signed formats. -/
def toSigned (bits : Nat) (x : Nat) : Int :=
  if x < 2 ^ (bits - 1) then (x : Int) else (x : Int) - 2 ^ bits

/-- `struct.unpack` of a `w`-byte big-endian signed field
(`>b`, `>h`, `>i`, `>q` for `w` = 1, 2, 4, 8). -/
def readSigned (w : Nat) (s : List Nat) : Except PyErr (Int × List Nat) := do
  let (x, s) ← unpackBE w s
  .ok (toSigned (8 * w) x, s)

/-- CPython's `bytes.decode('utf-8', errors='replace')`: WHATWG incremental
UTF-8 decoding where each maximal ill-formed subpart is replaced by one
U+FFFD (65533) and decoding resumes at the first byte after the subpart. -/
def utf8DecodeReplace : List Nat → List Nat
  | [] => []
  | b :: r =>
    if b < 0x80 then b :: utf8DecodeReplace r
    else if b < 0xC2 then 0xFFFD :: utf8DecodeReplace r
    else if b < 0xE0 then
      match r with
      | [] => [0xFFFD]
      | c :: r2 =>
        if 0x80 ≤ c ∧ c < 0xC0 then
          ((b - 0xC0) * 64 + (c - 0x80)) :: utf8DecodeReplace r2
        else 0xFFFD :: utf8DecodeReplace (c :: r2)
    else if b < 0xF0 then
      match r with
      | [] => [0xFFFD]
      | c :: r2 =>
        if (if b = 0xE0 then 0xA0 ≤ c ∧ c < 0xC0
            else if b = 0xED then 0x80 ≤ c ∧ c < 0xA0
            else 0x80 ≤ c ∧ c < 0xC0) then
          match r2 with
          | [] => [0xFFFD]
          | d :: r3 =>
            if 0x80 ≤ d ∧ d < 0xC0 then
              ((b - 0xE0) * 4096 + (c - 0x80) * 64 + (d - 0x80)) ::
                utf8DecodeReplace r3
            else 0xFFFD :: utf8DecodeReplace (d :: r3)
        else 0xFFFD :: utf8DecodeReplace (c :: r2)
    else if b < 0xF5 then
      match r with
      | [] => [0xFFFD]
      | c :: r2 =>
        if (if b = 0xF0 then 0x90 ≤ c ∧ c < 0xC0
            else if b = 0xF4 then 0x80 ≤ c ∧ c < 0x90
            else 0x80 ≤ c ∧ c < 0xC0) then
          match r2 with
          | [] => [0xFFFD]
          | d :: r3 =>
            if 0x80 ≤ d ∧ d < 0xC0 then
              match r3 with
              | [] => [0xFFFD]
              | e :: r4 =>
                if 0x80 ≤ e ∧ e < 0xC0 then
                  ((b - 0xF0) * 262144 + (c - 0x80) * 4096 +
                    (d - 0x80) * 64 + (e - 0x80)) :: utf8DecodeReplace r4
                else 0xFFFD :: utf8DecodeReplace (e :: r4)
            else 0xFFFD :: utf8DecodeReplace (d :: r3)
        else 0xFFFD :: utf8DecodeReplace (c :: r2)
    else 0xFFFD :: utf8DecodeReplace r

/-- `NBTReader.read_byte`: `struct.unpack('>b', self.stream.read(1))[0]`. -/
def read_byte (s : List Nat) : Except PyErr (Int × List Nat) := readSigned 1 s

/-- `NBTReader.read_ubyte`: `struct.unpack('>B', self.stream.read(1))[0]`. -/
def read_ubyte (s : List Nat) : Except PyErr (Nat × List Nat) := unpackBE 1 s

/-- `NBTReader.read_short`: `struct.unpack('>h', self.stream.read(2))[0]`. -/
def read_short (s : List Nat) : Except PyErr (Int × List Nat) := readSigned 2 s

/-- `NBTReader.read_int`: `struct.unpack('>i', self.stream.read(4))[0]`. -/
def read_int (s : List Nat) : Except PyErr (Int × List Nat) := readSigned 4 s

/-- `NBTReader.read_long`: `struct.unpack('>q', self.stream.read(8))[0]`. -/
def read_long (s : List Nat) : Except PyErr (Int × List Nat) := readSigned 8 s

/-- `NBTReader.read_string`:
`length = struct.unpack('>H', self.stream.read(2))[0]` followed by
`self.stream.read(length).decode('utf-8', errors='replace')`.  Note that the
payload read is a bare `BytesIO.read`: if fewer than `length` bytes remain
it silently returns the shorter prefix. -/
def read_string (s : List Nat) : Except PyErr (List Nat × List Nat) := do
  let (len, s) ← unpackBE 2 s
  let p := pyRead s (len : Int)
  .ok (utf8DecodeReplace p.1, p.2)

/-- Python `dict` assignment `d[k] = v`: an existing key keeps its position
in insertion order and receives the new value; a new key is appended. -/
def dictInsert (d : List (List Nat × PyVal)) (k : List Nat) (v : PyVal) :
    List (List Nat × PyVal) :=
  if d.any (fun p => p.1 = k) then
    d.map (fun p => if p.1 = k then (k, v) else p)
  else d ++ [(k, v)]

/-- The list comprehension `[rd() for _ in range(n)]` over a primitive
reader `rd`, as used for `TAG_Byte_Array`, `TAG_Int_Array`,
`TAG_Long_Array` (each element becomes a Python `int`). -/
def readRep (rd : List Nat → Except PyErr (Int × List Nat)) :
    Nat → List Nat → Except PyErr (List PyVal × List Nat)
  | 0, s => .ok ([], s)
  | n + 1, s => do
    let (v, s) ← rd s
    let (vs, s) ← readRep rd n s
    .ok (.int v :: vs, s)

mutual

/-- `NBTReader.read_tag(tag_type)` over the remaining stream.
`strict = true` is `complete_mcc_reader.py` (whose dispatch ends in
`raise ValueError(f"Unknown tag type: ...")`); `strict = false` is
`snowball_timeline.py` (whose dispatch has no `else` branch, so an
unknown tag type falls through and the method returns `None`). -/
def read_tag (strict : Bool) : Nat → Nat → List Nat →
    Except PyErr (PyVal × List Nat)
  | 0, _, _ => .error .outOfFuel
  | fuel + 1, t, s =>
    if t = 0 then .ok (.none, s)
    else if t = 1 then do
      let (v, s) ← read_byte s
      .ok (.int v, s)
    else if t = 2 then do
      let (v, s) ← read_short s
      .ok (.int v, s)
    else if t = 3 then do
      let (v, s) ← read_int s
      .ok (.int v, s)
    else if t = 4 then do
      let (v, s) ← read_long s
      .ok (.int v, s)
    else if t = 5 then do
      let (v, s) ← unpackBE 4 s
      .ok (.float32 v, s)
    else if t = 6 then do
      let (v, s) ← unpackBE 8 s
      .ok (.float64 v, s)
    else if t = 7 then do
      let (len, s) ← read_int s
      let (vs, s) ← readRep read_byte len.toNat s
      .ok (.list vs, s)
    else if t = 8 then do
      let (cs, s) ← read_string s
      .ok (.str cs, s)
    else if t = 9 then read_list strict fuel s
    else if t = 10 then do
      let (es, s) ← read_compound strict fuel [] s
      .ok (.dict es, s)
    else if t = 11 then do
      let (len, s) ← read_int s
      let (vs, s) ← readRep read_int len.toNat s
      .ok (.list vs, s)
    else if t = 12 then do
      let (len, s) ← read_int s
      let (vs, s) ← readRep read_long len.toNat s
      .ok (.list vs, s)
    else if strict then .error (.unknownTag t)
    else .ok (.none, s)

/-- `NBTReader.read_list`: element-type byte, signed 32-bit count, then the
comprehension `[self.read_tag(tag_type) for _ in range(length)]` (for a
negative count `range` is empty). -/
def read_list (strict : Bool) : Nat → List Nat →
    Except PyErr (PyVal × List Nat)
  | 0, _ => .error .outOfFuel
  | fuel + 1, s => do
    let (t, s) ← read_ubyte s
    let (len, s) ← read_int s
    let (vs, s) ← read_list_elems strict fuel t len.toNat s
    .ok (.list vs, s)

/-- The element loop of `read_list`: `n` iterations of
`self.read_tag(tag_type)`. -/
def read_list_elems (strict : Bool) : Nat → Nat → Nat → List Nat →
    Except PyErr (List PyVal × List Nat)
  | 0, _, _, _ => .error .outOfFuel
  | _ + 1, _, 0, s => .ok ([], s)
  | fuel + 1, t, n + 1, s => do
    let (v, s) ← read_tag strict fuel t s
    let (vs, s) ← read_list_elems strict fuel t n s
    .ok (v :: vs, s)

/-- `NBTReader.read_compound`: the `while True` loop with accumulator
`acc` standing for the Python `result` dict (`result = {}` at the call
site in `read_tag`).  A tag-type byte of 0 (`TAG_End`) ends the loop;
otherwise a name and a tag are read and `result[name] = ...` is
performed. -/
def read_compound (strict : Bool) : Nat → List (List Nat × PyVal) →
    List Nat → Except PyErr (List (List Nat × PyVal) × List Nat)
  | 0, _, _ => .error .outOfFuel
  | fuel + 1, acc, s => do
    let (t, s) ← read_ubyte s
    if t = 0 then .ok (acc, s)
    else do
      let (name, s) ← read_string s
      let (v, s) ← read_tag strict fuel t s
      read_compound strict fuel (dictInsert acc name v) s

end

/-- `NBTReader.read_root`: one tag-type byte; `TAG_End` means the document
is `None`, otherwise a name and a tag are read and `{name: data}` is
returned. -/
def read_root (strict : Bool) (fuel : Nat) (data : List Nat) :
    Except PyErr PyVal := do
  let (t, s) ← read_ubyte data
  if t = 0 then .ok .none
  else do
    let (name, s) ← read_string s
    let (v, _) ← read_tag strict fuel t s
    .ok (.dict [(name, v)])

mutual

/-- `DetailedNBTReader.skip_tag(tag_type)` from `find_owner.py`.  The
fixed-width cases use bare `self.stream.read(k)` (no `struct.unpack`, so
no error on a short read); the array cases read a signed 32-bit length and
then `self.stream.read(length)` / `read(length * 4)` / `read(length * 8)`
(for a negative length `BytesIO.read` reads to the end of the stream);
the dispatch has no `else` branch, so an unrecognized tag type skips
nothing. -/
def skip_tag : Nat → Nat → List Nat → Except PyErr (List Nat)
  | 0, _, _ => .error .outOfFuel
  | fuel + 1, t, s =>
    if t = 0 then .ok s
    else if t = 1 then .ok (pyRead s 1).2
    else if t = 2 then .ok (pyRead s 2).2
    else if t = 3 then .ok (pyRead s 4).2
    else if t = 4 then .ok (pyRead s 8).2
    else if t = 5 then .ok (pyRead s 4).2
    else if t = 6 then .ok (pyRead s 8).2
    else if t = 7 then do
      let (len, s) ← read_int s
      .ok (pyRead s len).2
    else if t = 8 then do
      let (_, s) ← read_string s
      .ok s
    else if t = 9 then do
      let (lt, s) ← read_ubyte s
      let (len, s) ← read_int s
      skip_list_elems fuel lt len.toNat s
    else if t = 10 then skip_compound fuel s
    else if t = 11 then do
      let (len, s) ← read_int s
      .ok (pyRead s (len * 4)).2
    else if t = 12 then do
      let (len, s) ← read_int s
      .ok (pyRead s (len * 8)).2
    else .ok s

/-- The element loop of the `TAG_List` case of `skip_tag`:
`for _ in range(length): self.skip_tag(list_type)`. -/
def skip_list_elems : Nat → Nat → Nat → List Nat → Except PyErr (List Nat)
  | 0, _, _, _ => .error .outOfFuel
  | _ + 1, _, 0, s => .ok s
  | fuel + 1, t, n + 1, s => do
    let s ← skip_tag fuel t s
    skip_list_elems fuel t n s

/-- `DetailedNBTReader.skip_compound`: read a tag-type byte, stop on 0,
otherwise read and discard the name, skip the tag, repeat. -/
def skip_compound : Nat → List Nat → Except PyErr (List Nat)
  | 0, _ => .error .outOfFuel
  | fuel + 1, s => do
    let (t, s) ← read_ubyte s
    if t = 0 then .ok s
    else do
      let (_, s) ← read_string s
      let s ← skip_tag fuel t s
      skip_compound fuel s

end

/-- Big-endian byte encoding of `x` in exactly `w` bytes (the low
`8 * w` bits of `x`). -/
def beBytes : Nat → Nat → List Nat
  | 0, _ => []
  | w + 1, x => beBytes w (x / 256) ++ [x % 256]

/-- Big-endian two's-complement encoding of the signed value `v` in `w`
bytes, as the wire format stores every signed field. -/
def encIntBE (w : Nat) (v : Int) : List Nat :=
  beBytes w (v % ((2 : Int) ^ (8 * w))).toNat

mutual

/-- Syntax of one well-formed tag payload of the wire format, used to state
round-trip properties of the decoder.  Constructors carry the decoded
content; `NTag.enc` is the canonical byte encoding and `NTag.val` the
Python value the source decoder is expected to produce. -/
inductive NTag : Type where
  | byteT (v : Int) : NTag
  | shortT (v : Int) : NTag
  | intT (v : Int) : NTag
  | longT (v : Int) : NTag
  | floatT (bits : Nat) : NTag
  | doubleT (bits : Nat) : NTag
  | byteArrT (vs : List Int) : NTag
  | strT (bs : List Nat) : NTag
  | listT (ty : Nat) (xs : NTagList) : NTag
  | compoundT (es : NEntryList) : NTag
  | intArrT (vs : List Int) : NTag
  | longArrT (vs : List Int) : NTag

/-- A sequence of list elements. -/
inductive NTagList : Type where
  | nil : NTagList
  | cons (x : NTag) (xs : NTagList) : NTagList

/-- A sequence of named compound entries. -/
inductive NEntryList : Type where
  | nil : NEntryList
  | cons (name : List Nat) (v : NTag) (es : NEntryList) : NEntryList

end

/-- The tag-type code of a payload, per the 13-value enumeration. -/
def NTag.code : NTag → Nat
  | .byteT _ => 1
  | .shortT _ => 2
  | .intT _ => 3
  | .longT _ => 4
  | .floatT _ => 5
  | .doubleT _ => 6
  | .byteArrT _ => 7
  | .strT _ => 8
  | .listT _ _ => 9
  | .compoundT _ => 10
  | .intArrT _ => 11
  | .longArrT _ => 12

/-- Number of elements of an `NTagList`. -/
def NTagList.len : NTagList → Nat
  | .nil => 0
  | .cons _ xs => 1 + xs.len

/-- Homogeneity: every element of the list has tag-type code `ty`. -/
def NTagList.codesAre (ty : Nat) : NTagList → Bool
  | .nil => true
  | .cons x xs => (x.code == ty) && xs.codesAre ty

mutual

/-- Wire encoding of one tag payload. -/
def NTag.enc : NTag → List Nat
  | .byteT v => encIntBE 1 v
  | .shortT v => encIntBE 2 v
  | .intT v => encIntBE 4 v
  | .longT v => encIntBE 8 v
  | .floatT bits => beBytes 4 bits
  | .doubleT bits => beBytes 8 bits
  | .byteArrT vs => encIntBE 4 vs.length ++ (vs.map (encIntBE 1)).flatten
  | .strT bs => beBytes 2 bs.length ++ bs
  | .listT ty xs => ty :: (encIntBE 4 xs.len ++ NTagList.enc xs)
  | .compoundT es => NEntryList.enc es ++ [0]
  | .intArrT vs => encIntBE 4 vs.length ++ (vs.map (encIntBE 4)).flatten
  | .longArrT vs => encIntBE 4 vs.length ++ (vs.map (encIntBE 8)).flatten

/-- Wire encoding of list elements, in order. -/
def NTagList.enc : NTagList → List Nat
  | .nil => []
  | .cons x xs => NTag.enc x ++ NTagList.enc xs

/-- Wire encoding of compound entries: tag-type byte, u16-length-prefixed
name bytes, payload, for each entry in order (the closing End byte is added
by `NTag.enc` for `compoundT`). -/
def NEntryList.enc : NEntryList → List Nat
  | .nil => []
  | .cons name v es =>
      v.code :: (beBytes 2 name.length ++ name ++ NTag.enc v ++ NEntryList.enc es)

end

mutual

/-- The Python value the decoder produces for a payload. -/
def NTag.val : NTag → PyVal
  | .byteT v => .int v
  | .shortT v => .int v
  | .intT v => .int v
  | .longT v => .int v
  | .floatT bits => .float32 bits
  | .doubleT bits => .float64 bits
  | .byteArrT vs => .list (vs.map PyVal.int)
  | .strT bs => .str (utf8DecodeReplace bs)
  | .listT _ xs => .list (NTagList.val xs)
  | .compoundT es => .dict (NEntryList.val [] es)
  | .intArrT vs => .list (vs.map PyVal.int)
  | .longArrT vs => .list (vs.map PyVal.int)

/-- Values of the list elements, in order. -/
def NTagList.val : NTagList → List PyVal
  | .nil => []
  | .cons x xs => x.val :: NTagList.val xs

/-- The dict built from compound entries starting from `acc`, by repeated
Python dict assignment (so a duplicated name keeps its first position and
its last value). -/
def NEntryList.val : List (List Nat × PyVal) → NEntryList →
    List (List Nat × PyVal)
  | acc, .nil => acc
  | acc, .cons name v es =>
      NEntryList.val (dictInsert acc (utf8DecodeReplace name) v.val) es

end

mutual

/-- Well-formedness of a payload description: every numeric value is in the
range of its field, every count fits a non-negative signed 32-bit field,
string and name lengths fit their unsigned 16-bit field, and lists are
homogeneous with a valid element-type byte. -/
def NTag.wf : NTag → Bool
  | .byteT v => decide (-128 ≤ v) && decide (v < 128)
  | .shortT v => decide (-(2 ^ 15) ≤ v) && decide (v < 2 ^ 15)
  | .intT v => decide (-(2 ^ 31) ≤ v) && decide (v < 2 ^ 31)
  | .longT v => decide (-(2 ^ 63) ≤ v) && decide (v < 2 ^ 63)
  | .floatT bits => decide (bits < 2 ^ 32)
  | .doubleT bits => decide (bits < 2 ^ 64)
  | .byteArrT vs =>
      decide (vs.length < 2 ^ 31) &&
        vs.all (fun v => decide (-128 ≤ v) && decide (v < 128))
  | .strT bs => decide (bs.length < 2 ^ 16)
  | .listT ty xs =>
      decide (ty < 256) && decide (xs.len < 2 ^ 31) &&
        xs.codesAre ty && NTagList.wf xs
  | .compoundT es => NEntryList.wf es
  | .intArrT vs =>
      decide (vs.length < 2 ^ 31) &&
        vs.all (fun v => decide (-(2 ^ 31) ≤ v) && decide (v < 2 ^ 31))
  | .longArrT vs =>
      decide (vs.length < 2 ^ 31) &&
        vs.all (fun v => decide (-(2 ^ 63) ≤ v) && decide (v < 2 ^ 63))

/-- Well-formedness of list elements. -/
def NTagList.wf : NTagList → Bool
  | .nil => true
  | .cons x xs => NTag.wf x && NTagList.wf xs

/-- Well-formedness of compound entries. -/
def NEntryList.wf : NEntryList → Bool
  | .nil => true
  | .cons name v es =>
      decide (name.length < 2 ^ 16) && NTag.wf v && NEntryList.wf es

end

mutual

/-- A fuel amount sufficient for the decoder (and the skipper) to process
the payload, established by the round-trip theorems below. -/
def NTag.big : NTag → Nat
  | .listT _ xs => 2 + NTagList.big xs
  | .compoundT es => 1 + NEntryList.big es
  | _ => 1

/-- Sufficient fuel for a list-element sequence. -/
def NTagList.big : NTagList → Nat
  | .nil => 1
  | .cons x xs => 1 + max (NTag.big x) (NTagList.big xs)

/-- Sufficient fuel for a compound-entry sequence. -/
def NEntryList.big : NEntryList → Nat
  | .nil => 1
  | .cons _ v es => 1 + max (NTag.big v) (NEntryList.big es)

end

/-- A `w`-byte big-endian encoding has length `w`. -/
theorem beBytes_length (w x : Nat) : (beBytes w x).length = w := by
  induction w generalizing x with
  | zero => rfl
  | succ w ih => simp [beBytes, ih]

/-- Appending one byte multiplies the big-endian value by 256 and adds it. -/
theorem beNat_snoc (l : List Nat) (b : Nat) :
    beNat (l ++ [b]) = 256 * beNat l + b := by
  simp [beNat, List.foldl_append]; ring

/-- Decoding inverts encoding for values that fit in `w` bytes. -/
theorem beNat_beBytes (w x : Nat) (h : x < 256 ^ w) :
    beNat (beBytes w x) = x := by
  induction w generalizing x with
  | zero => simp [beBytes, beNat]; omega
  | succ w ih =>
    have hx : x / 256 < 256 ^ w := by
      rw [Nat.div_lt_iff_lt_mul (by norm_num)]
      calc x < 256 ^ (w + 1) := h
        _ = 256 ^ w * 256 := by ring
    simp only [beBytes, beNat_snoc, ih (x / 256) hx]
    omega

/-- Reading exactly the length of a known block returns that block. -/
theorem pyRead_exact (xs rest : List Nat) (n : Int) (h : n = xs.length) :
    pyRead (xs ++ rest) n = (xs, rest) := by
  subst h
  simp [pyRead, List.take_left' rfl, List.drop_left' rfl]

/-- Unpacking an unsigned field over its encoding succeeds. -/
theorem unpackBE_exact (w x : Nat) (rest : List Nat) (h : x < 256 ^ w) :
    unpackBE w (beBytes w x ++ rest) = .ok (x, rest) := by
  have hp := pyRead_exact (beBytes w x) rest w (by simp [beBytes_length])
  simp [unpackBE, hp, beBytes_length, beNat_beBytes w x h]

/-- Byte counts versus bit counts. -/
theorem pow_256 (w : Nat) : (256 : Nat) ^ w = 2 ^ (8 * w) := by
  rw [pow_mul]; norm_num

/-- The reduced image of a signed value fits in `w` bytes. -/
theorem emod_toNat_bounds (w : Nat) (v : Int) :
    (v % ((2 : Int) ^ (8 * w))).toNat < 256 ^ w := by
  have hMpos : (0 : Int) < 2 ^ (8 * w) := by positivity
  have h0 : 0 ≤ v % ((2 : Int) ^ (8 * w)) := Int.emod_nonneg v (by omega)
  have hlt : v % ((2 : Int) ^ (8 * w)) < 2 ^ (8 * w) := Int.emod_lt_of_pos v hMpos
  have hcast : ((2 : Int) ^ (8 * w)) = ((256 ^ w : Nat) : Int) := by
    rw [pow_256]; push_cast; rfl
  omega

/-- Signed reinterpretation inverts the reduction on the representable
range. -/
theorem toSigned_emod (w : Nat) (v : Int) (hw : 1 ≤ w)
    (h1 : -(2 ^ (8 * w - 1)) ≤ v) (h2 : v < 2 ^ (8 * w - 1)) :
    toSigned (8 * w) ((v % ((2 : Int) ^ (8 * w))).toNat) = v := by
  have hMH : (2 : Int) ^ (8 * w) = 2 * 2 ^ (8 * w - 1) := by
    rw [← pow_succ']
    congr 1
    omega
  have hKcast : ((2 : Int) ^ (8 * w - 1)) = ((2 ^ (8 * w - 1) : Nat) : Int) := by
    push_cast; rfl
  have hMpos : (0 : Int) < 2 ^ (8 * w) := by positivity
  have hmodval : v % ((2 : Int) ^ (8 * w)) = if 0 ≤ v then v else v + 2 ^ (8 * w) := by
    split
    · exact Int.emod_eq_of_lt (by assumption) (by omega)
    · have h : (v + 2 ^ (8 * w)) % (2 ^ (8 * w)) = v % (2 ^ (8 * w)) := by
        simp [Int.add_mul_emod_self_left]
      rw [← h]
      exact Int.emod_eq_of_lt (by omega) (by omega)
  have hKN : ((2 ^ (8 * w - 1) : Nat) : Int) = 2 ^ (8 * w - 1) := by
    push_cast; rfl
  unfold toSigned
  rcases le_or_lt 0 v with hv | hv
  · rw [hmodval, if_pos hv]
    split <;> omega
  · rw [hmodval, if_neg (not_le.mpr hv)]
    split <;> omega

/-- Unpacking a signed field over its encoding recovers the value. -/
theorem readSigned_enc (w : Nat) (v : Int) (rest : List Nat) (hw : 1 ≤ w)
    (h1 : -(2 ^ (8 * w - 1)) ≤ v) (h2 : v < 2 ^ (8 * w - 1)) :
    readSigned w (encIntBE w v ++ rest) = .ok (v, rest) := by
  unfold readSigned encIntBE
  rw [unpackBE_exact w _ rest (emod_toNat_bounds w v)]
  show Except.ok (toSigned (8 * w) ((v % ((2 : Int) ^ (8 * w))).toNat), rest) = _
  rw [toSigned_emod w v hw h1 h2]

/-- The compound payload of a chain of `n` nested compounds: level 0 is the
empty compound (just the End byte); level `k + 1` contains a single entry
named "a" (byte 0x61) holding the level-`k` compound. -/
def nestBytes : Nat → List Nat
  | 0 => [0]
  | k + 1 => 10 :: 0 :: 1 :: 97 :: (nestBytes k ++ [0])

/-- The dict produced by decoding `nestBytes`, starting from accumulator
`acc`. -/
def nestStep (acc : List (List Nat × PyVal)) : Nat → List (List Nat × PyVal)
  | 0 => acc
  | k + 1 => dictInsert acc [97] (.dict (nestStep [] k))

/-- `read_string` over a u16-length-prefixed block decodes exactly that
block (with UTF-8 replacement) and leaves the rest untouched. -/
theorem read_string_enc (bs rest : List Nat) (h : bs.length < 2 ^ 16) :
    read_string (beBytes 2 bs.length ++ (bs ++ rest)) =
      .ok (utf8DecodeReplace bs, rest) := by
  unfold read_string
  rw [unpackBE_exact 2 bs.length (bs ++ rest) (by norm_num; omega)]
  show Except.ok
      (utf8DecodeReplace (pyRead (bs ++ rest) ((bs.length : Nat) : Int)).1,
        (pyRead (bs ++ rest) ((bs.length : Nat) : Int)).2) = _
  rw [pyRead_exact bs rest bs.length rfl]

/-- Length of a concatenation of fixed-width encodings. -/
theorem flatten_map_enc_length (w : Nat) (vs : List Int) :
    ((vs.map (encIntBE w)).flatten).length = w * vs.length := by
  induction vs with
  | nil => simp
  | cons v vs ih =>
    simp [encIntBE, beBytes_length, ih]
    ring

/-- The array-element loop over concatenated encodings decodes the values
in order. -/
theorem readRep_enc (w : Nat) (hw : 1 ≤ w) (vs : List Int) (rest : List Nat)
    (hvs : ∀ v ∈ vs, -(2 ^ (8 * w - 1)) ≤ v ∧ v < 2 ^ (8 * w - 1)) :
    readRep (readSigned w) vs.length ((vs.map (encIntBE w)).flatten ++ rest) =
      .ok (vs.map PyVal.int, rest) := by
  induction vs with
  | nil => simp [readRep]
  | cons v vs ih =>
    have hv := hvs v (List.mem_cons_self v vs)
    simp only [List.map_cons, List.flatten_cons, List.length_cons,
      List.append_assoc]
    rw [readRep]
    rw [readSigned_enc w v _ hw hv.1 hv.2]
    show (do
      let (vs2, s) ← readRep (readSigned w) vs.length
        ((vs.map (encIntBE w)).flatten ++ rest)
      Except.ok (PyVal.int v :: vs2, s)) = _
    rw [ih (fun x hx => hvs x (List.mem_cons_of_mem v hx))]
    rfl

/-- A compound whose next byte is the End marker returns the accumulated
dict immediately. -/
theorem read_compound_end (strict : Bool) (f : Nat) (acc : List (List Nat × PyVal))
    (rest : List Nat) :
    read_compound strict (f + 1) acc (0 :: rest) = .ok (acc, rest) := by
  rw [read_compound]
  rfl

/-- Reduction of the `Except` bind on a success value. -/
theorem bind_ok {α β : Type} (a : α) (f : α → Except PyErr β) :
    (Except.ok a >>= f) = f a := rfl

/-- `read_ubyte` takes the head byte of a nonempty stream. -/
theorem read_ubyte_cons (b : Nat) (l : List Nat) :
    read_ubyte (b :: l) = .ok (b, l) := by
  simp [read_ubyte, unpackBE, pyRead, beNat]

mutual

/-- Round trip: on the encoding of any well-formed payload, `read_tag`
(of either reader variant) succeeds with the corresponding Python value and
consumes exactly the encoding. -/
theorem read_tag_enc (strict : Bool) : ∀ (t : NTag) (fuel : Nat) (rest : List Nat),
    NTag.wf t = true → NTag.big t ≤ fuel →
    read_tag strict fuel t.code (t.enc ++ rest) = .ok (t.val, rest)
  | .byteT v, fuel, rest, hwf, hbig => by
    obtain ⟨f, rfl⟩ : ∃ f, fuel = f + 1 :=
      ⟨fuel - 1, by simp [NTag.big] at hbig; omega⟩
    simp only [NTag.wf, Bool.and_eq_true, decide_eq_true_eq] at hwf
    have h1 : read_byte (encIntBE 1 v ++ rest) = .ok (v, rest) :=
      readSigned_enc 1 v rest (by norm_num) (by norm_num; omega)
        (by norm_num; omega)
    simp only [NTag.code, NTag.enc, NTag.val]
    rw [read_tag]
    simp only [h1, bind_ok]
    rfl
  | .shortT v, fuel, rest, hwf, hbig => by
    obtain ⟨f, rfl⟩ : ∃ f, fuel = f + 1 :=
      ⟨fuel - 1, by simp [NTag.big] at hbig; omega⟩
    simp only [NTag.wf, Bool.and_eq_true, decide_eq_true_eq] at hwf
    have h1 : read_short (encIntBE 2 v ++ rest) = .ok (v, rest) :=
      readSigned_enc 2 v rest (by norm_num) (by norm_num; omega)
        (by norm_num; omega)
    simp only [NTag.code, NTag.enc, NTag.val]
    rw [read_tag]
    simp only [h1, bind_ok]
    rfl
  | .intT v, fuel, rest, hwf, hbig => by
    obtain ⟨f, rfl⟩ : ∃ f, fuel = f + 1 :=
      ⟨fuel - 1, by simp [NTag.big] at hbig; omega⟩
    simp only [NTag.wf, Bool.and_eq_true, decide_eq_true_eq] at hwf
    have h1 : read_int (encIntBE 4 v ++ rest) = .ok (v, rest) :=
      readSigned_enc 4 v rest (by norm_num) (by norm_num; omega)
        (by norm_num; omega)
    simp only [NTag.code, NTag.enc, NTag.val]
    rw [read_tag]
    simp only [h1, bind_ok]
    rfl
  | .longT v, fuel, rest, hwf, hbig => by
    obtain ⟨f, rfl⟩ : ∃ f, fuel = f + 1 :=
      ⟨fuel - 1, by simp [NTag.big] at hbig; omega⟩
    simp only [NTag.wf, Bool.and_eq_true, decide_eq_true_eq] at hwf
    have h1 : read_long (encIntBE 8 v ++ rest) = .ok (v, rest) :=
      readSigned_enc 8 v rest (by norm_num) (by norm_num; omega)
        (by norm_num; omega)
    simp only [NTag.code, NTag.enc, NTag.val]
    rw [read_tag]
    simp only [h1, bind_ok]
    rfl
  | .floatT bits, fuel, rest, hwf, hbig => by
    obtain ⟨f, rfl⟩ : ∃ f, fuel = f + 1 :=
      ⟨fuel - 1, by simp [NTag.big] at hbig; omega⟩
    simp only [NTag.wf, decide_eq_true_eq] at hwf
    have h1 : unpackBE 4 (beBytes 4 bits ++ rest) = .ok (bits, rest) :=
      unpackBE_exact 4 bits rest (by norm_num; omega)
    simp only [NTag.code, NTag.enc, NTag.val]
    rw [read_tag]
    simp only [h1, bind_ok]
    rfl
  | .doubleT bits, fuel, rest, hwf, hbig => by
    obtain ⟨f, rfl⟩ : ∃ f, fuel = f + 1 :=
      ⟨fuel - 1, by simp [NTag.big] at hbig; omega⟩
    simp only [NTag.wf, decide_eq_true_eq] at hwf
    have h1 : unpackBE 8 (beBytes 8 bits ++ rest) = .ok (bits, rest) :=
      unpackBE_exact 8 bits rest (by norm_num; omega)
    simp only [NTag.code, NTag.enc, NTag.val]
    rw [read_tag]
    simp only [h1, bind_ok]
    rfl
  | .byteArrT vs, fuel, rest, hwf, hbig => by
    obtain ⟨f, rfl⟩ : ∃ f, fuel = f + 1 :=
      ⟨fuel - 1, by simp [NTag.big] at hbig; omega⟩
    simp only [NTag.wf, Bool.and_eq_true, decide_eq_true_eq,
      List.all_eq_true] at hwf
    have h1 : read_int (encIntBE 4 (vs.length : Int) ++
        ((vs.map (encIntBE 1)).flatten ++ rest)) =
        .ok ((vs.length : Int), (vs.map (encIntBE 1)).flatten ++ rest) :=
      readSigned_enc 4 vs.length _ (by norm_num) (by norm_num; omega)
        (by norm_num; omega)
    have h2 : readRep read_byte ((vs.length : Int)).toNat
        ((vs.map (encIntBE 1)).flatten ++ rest) =
        .ok (vs.map PyVal.int, rest) := by
      rw [show ((vs.length : Int)).toNat = vs.length from by omega]
      refine readRep_enc 1 (by norm_num) vs rest ?_
      intro v hv
      have := hwf.2 v hv
      norm_num at this ⊢
      omega
    simp only [NTag.code, NTag.enc, NTag.val]
    rw [read_tag]
    simp only [List.append_assoc, h1, h2, bind_ok]
    rfl
  | .strT bs, fuel, rest, hwf, hbig => by
    obtain ⟨f, rfl⟩ : ∃ f, fuel = f + 1 :=
      ⟨fuel - 1, by simp [NTag.big] at hbig; omega⟩
    simp only [NTag.wf, decide_eq_true_eq] at hwf
    have h1 : read_string (beBytes 2 bs.length ++ (bs ++ rest)) =
        .ok (utf8DecodeReplace bs, rest) := read_string_enc bs rest hwf
    simp only [NTag.code, NTag.enc, NTag.val]
    rw [read_tag]
    simp only [List.append_assoc, h1, bind_ok]
    rfl
  | .listT ty xs, fuel, rest, hwf, hbig => by
    simp only [NTag.wf, Bool.and_eq_true, decide_eq_true_eq] at hwf
    obtain ⟨⟨⟨hty, hlen⟩, hcodes⟩, hwfxs⟩ := hwf
    obtain ⟨f, rfl⟩ : ∃ f, fuel = f + 2 :=
      ⟨fuel - 2, by simp [NTag.big] at hbig; omega⟩
    have hbigxs : NTagList.big xs ≤ f := by
      simp [NTag.big] at hbig; omega
    have h1 : read_int (encIntBE 4 (xs.len : Int) ++ (NTagList.enc xs ++ rest)) =
        .ok ((xs.len : Int), NTagList.enc xs ++ rest) :=
      readSigned_enc 4 xs.len _ (by norm_num) (by norm_num; omega)
        (by norm_num; omega)
    have h2 : read_list_elems strict f ty ((xs.len : Int)).toNat
        (NTagList.enc xs ++ rest) = .ok (NTagList.val xs, rest) := by
      rw [show ((xs.len : Int)).toNat = xs.len from by omega]
      exact read_list_elems_enc strict xs ty f rest hwfxs hcodes hbigxs
    show read_list strict (f + 1) (NTag.enc (.listT ty xs) ++ rest) =
      .ok (NTag.val (.listT ty xs), rest)
    simp only [NTag.enc, NTag.val, List.cons_append, List.append_assoc]
    rw [read_list]
    simp only [read_ubyte_cons, h1, h2, bind_ok]
  | .compoundT es, fuel, rest, hwf, hbig => by
    simp only [NTag.wf] at hwf
    obtain ⟨f, rfl⟩ : ∃ f, fuel = f + 1 :=
      ⟨fuel - 1, by simp [NTag.big] at hbig; omega⟩
    have hbige : NEntryList.big es ≤ f := by simp [NTag.big] at hbig; omega
    have h2 := read_compound_enc strict es f [] rest hwf hbige
    simp only [NTag.code, NTag.enc, NTag.val]
    rw [read_tag]
    simp only [List.append_assoc, List.singleton_append, h2, bind_ok]
    rfl
  | .intArrT vs, fuel, rest, hwf, hbig => by
    obtain ⟨f, rfl⟩ : ∃ f, fuel = f + 1 :=
      ⟨fuel - 1, by simp [NTag.big] at hbig; omega⟩
    simp only [NTag.wf, Bool.and_eq_true, decide_eq_true_eq,
      List.all_eq_true] at hwf
    have h1 : read_int (encIntBE 4 (vs.length : Int) ++
        ((vs.map (encIntBE 4)).flatten ++ rest)) =
        .ok ((vs.length : Int), (vs.map (encIntBE 4)).flatten ++ rest) :=
      readSigned_enc 4 vs.length _ (by norm_num) (by norm_num; omega)
        (by norm_num; omega)
    have h2 : readRep read_int ((vs.length : Int)).toNat
        ((vs.map (encIntBE 4)).flatten ++ rest) =
        .ok (vs.map PyVal.int, rest) := by
      rw [show ((vs.length : Int)).toNat = vs.length from by omega]
      refine readRep_enc 4 (by norm_num) vs rest ?_
      intro v hv
      have := hwf.2 v hv
      norm_num at this ⊢
      omega
    simp only [NTag.code, NTag.enc, NTag.val]
    rw [read_tag]
    simp only [List.append_assoc, h1, h2, bind_ok]
    rfl
  | .longArrT vs, fuel, rest, hwf, hbig => by
    obtain ⟨f, rfl⟩ : ∃ f, fuel = f + 1 :=
      ⟨fuel - 1, by simp [NTag.big] at hbig; omega⟩
    simp only [NTag.wf, Bool.and_eq_true, decide_eq_true_eq,
      List.all_eq_true] at hwf
    have h1 : read_int (encIntBE 4 (vs.length : Int) ++
        ((vs.map (encIntBE 8)).flatten ++ rest)) =
        .ok ((vs.length : Int), (vs.map (encIntBE 8)).flatten ++ rest) :=
      readSigned_enc 4 vs.length _ (by norm_num) (by norm_num; omega)
        (by norm_num; omega)
    have h2 : readRep read_long ((vs.length : Int)).toNat
        ((vs.map (encIntBE 8)).flatten ++ rest) =
        .ok (vs.map PyVal.int, rest) := by
      rw [show ((vs.length : Int)).toNat = vs.length from by omega]
      refine readRep_enc 8 (by norm_num) vs rest ?_
      intro v hv
      have := hwf.2 v hv
      norm_num at this ⊢
      omega
    simp only [NTag.code, NTag.enc, NTag.val]
    rw [read_tag]
    simp only [List.append_assoc, h1, h2, bind_ok]
    rfl

/-- Round trip for the list-element loop. -/
theorem read_list_elems_enc (strict : Bool) : ∀ (xs : NTagList) (ty fuel : Nat)
    (rest : List Nat),
    NTagList.wf xs = true → NTagList.codesAre ty xs = true →
    NTagList.big xs ≤ fuel →
    read_list_elems strict fuel ty xs.len (NTagList.enc xs ++ rest) =
      .ok (NTagList.val xs, rest)
  | .nil, ty, fuel, rest, _, _, hbig => by
    obtain ⟨f, rfl⟩ : ∃ f, fuel = f + 1 :=
      ⟨fuel - 1, by simp [NTagList.big] at hbig; omega⟩
    simp only [NTagList.len, NTagList.enc, NTagList.val, List.nil_append]
    rw [read_list_elems]
  | .cons x xs, ty, fuel, rest, hwf, hcodes, hbig => by
    obtain ⟨f, rfl⟩ : ∃ f, fuel = f + 1 :=
      ⟨fuel - 1, by simp [NTagList.big] at hbig; omega⟩
    simp only [NTagList.wf, Bool.and_eq_true] at hwf
    simp only [NTagList.codesAre, Bool.and_eq_true, beq_iff_eq] at hcodes
    have hbx : NTag.big x ≤ f := by simp [NTagList.big] at hbig; omega
    have hbxs : NTagList.big xs ≤ f := by simp [NTagList.big] at hbig; omega
    have h1 : read_tag strict f ty (NTag.enc x ++ (NTagList.enc xs ++ rest)) =
        .ok (NTag.val x, NTagList.enc xs ++ rest) := by
      rw [← hcodes.1]
      exact read_tag_enc strict x f _ hwf.1 hbx
    have h2 := read_list_elems_enc strict xs ty f rest hwf.2 hcodes.2 hbxs
    simp only [NTagList.len, NTagList.enc, NTagList.val, List.append_assoc]
    rw [show 1 + NTagList.len xs = NTagList.len xs + 1 from by omega]
    rw [read_list_elems]
    simp only [h1, h2, bind_ok]

/-- Round trip for the compound loop: entries are read until the End byte
and inserted into the accumulator in order by dict assignment. -/
theorem read_compound_enc (strict : Bool) : ∀ (es : NEntryList) (fuel : Nat)
    (acc : List (List Nat × PyVal)) (rest : List Nat),
    NEntryList.wf es = true → NEntryList.big es ≤ fuel →
    read_compound strict fuel acc (NEntryList.enc es ++ (0 :: rest)) =
      .ok (NEntryList.val acc es, rest)
  | .nil, fuel, acc, rest, _, hbig => by
    obtain ⟨f, rfl⟩ : ∃ f, fuel = f + 1 :=
      ⟨fuel - 1, by simp [NEntryList.big] at hbig; omega⟩
    simp only [NEntryList.enc, NEntryList.val, List.nil_append]
    exact read_compound_end strict f acc rest
  | .cons name v es, fuel, acc, rest, hwf, hbig => by
    obtain ⟨f, rfl⟩ : ∃ f, fuel = f + 1 :=
      ⟨fuel - 1, by simp [NEntryList.big] at hbig; omega⟩
    simp only [NEntryList.wf, Bool.and_eq_true, decide_eq_true_eq] at hwf
    obtain ⟨⟨hname, hwfv⟩, hwfes⟩ := hwf
    have hbv : NTag.big v ≤ f := by simp [NEntryList.big] at hbig; omega
    have hbes : NEntryList.big es ≤ f := by simp [NEntryList.big] at hbig; omega
    have hstr : read_string (beBytes 2 name.length ++
        (name ++ (NTag.enc v ++ (NEntryList.enc es ++ (0 :: rest))))) =
        .ok (utf8DecodeReplace name,
          NTag.enc v ++ (NEntryList.enc es ++ (0 :: rest))) :=
      read_string_enc name _ hname
    have htag := read_tag_enc strict v f (NEntryList.enc es ++ (0 :: rest))
      hwfv hbv
    have hrec := read_compound_enc strict es f
      (dictInsert acc (utf8DecodeReplace name) (NTag.val v)) rest hwfes hbes
    have hcode : ¬ NTag.code v = 0 := by cases v <;> simp [NTag.code]
    simp only [NEntryList.enc, NEntryList.val, List.cons_append,
      List.append_assoc]
    rw [read_compound]
    simp only [read_ubyte_cons, bind_ok]
    rw [if_neg hcode]
    simp only [hstr, htag, hrec, bind_ok]

end

/-- A `w`-byte signed encoding has length `w`. -/
theorem encIntBE_length (w : Nat) (v : Int) : (encIntBE w v).length = w := by
  simp [encIntBE, beBytes_length]

mutual

/-- `skip_tag` over the encoding of any well-formed payload consumes
exactly the encoding. -/
theorem skip_tag_enc : ∀ (t : NTag) (fuel : Nat) (rest : List Nat),
    NTag.wf t = true → NTag.big t ≤ fuel →
    skip_tag fuel t.code (t.enc ++ rest) = .ok rest
  | .byteT v, fuel, rest, hwf, hbig => by
    obtain ⟨f, rfl⟩ : ∃ f, fuel = f + 1 :=
      ⟨fuel - 1, by simp [NTag.big] at hbig; omega⟩
    have h1 : pyRead (encIntBE 1 v ++ rest) (1 : Int) = (encIntBE 1 v, rest) :=
      pyRead_exact _ _ _ (by simp [encIntBE_length])
    simp only [NTag.code, NTag.enc]
    rw [skip_tag]
    simp only [h1]
    rfl
  | .shortT v, fuel, rest, hwf, hbig => by
    obtain ⟨f, rfl⟩ : ∃ f, fuel = f + 1 :=
      ⟨fuel - 1, by simp [NTag.big] at hbig; omega⟩
    have h1 : pyRead (encIntBE 2 v ++ rest) (2 : Int) = (encIntBE 2 v, rest) :=
      pyRead_exact _ _ _ (by simp [encIntBE_length])
    simp only [NTag.code, NTag.enc]
    rw [skip_tag]
    simp only [h1]
    rfl
  | .intT v, fuel, rest, hwf, hbig => by
    obtain ⟨f, rfl⟩ : ∃ f, fuel = f + 1 :=
      ⟨fuel - 1, by simp [NTag.big] at hbig; omega⟩
    have h1 : pyRead (encIntBE 4 v ++ rest) (4 : Int) = (encIntBE 4 v, rest) :=
      pyRead_exact _ _ _ (by simp [encIntBE_length])
    simp only [NTag.code, NTag.enc]
    rw [skip_tag]
    simp only [h1]
    rfl
  | .longT v, fuel, rest, hwf, hbig => by
    obtain ⟨f, rfl⟩ : ∃ f, fuel = f + 1 :=
      ⟨fuel - 1, by simp [NTag.big] at hbig; omega⟩
    have h1 : pyRead (encIntBE 8 v ++ rest) (8 : Int) = (encIntBE 8 v, rest) :=
      pyRead_exact _ _ _ (by simp [encIntBE_length])
    simp only [NTag.code, NTag.enc]
    rw [skip_tag]
    simp only [h1]
    rfl
  | .floatT bits, fuel, rest, hwf, hbig => by
    obtain ⟨f, rfl⟩ : ∃ f, fuel = f + 1 :=
      ⟨fuel - 1, by simp [NTag.big] at hbig; omega⟩
    have h1 : pyRead (beBytes 4 bits ++ rest) (4 : Int) = (beBytes 4 bits, rest) :=
      pyRead_exact _ _ _ (by simp [beBytes_length])
    simp only [NTag.code, NTag.enc]
    rw [skip_tag]
    simp only [h1]
    rfl
  | .doubleT bits, fuel, rest, hwf, hbig => by
    obtain ⟨f, rfl⟩ : ∃ f, fuel = f + 1 :=
      ⟨fuel - 1, by simp [NTag.big] at hbig; omega⟩
    have h1 : pyRead (beBytes 8 bits ++ rest) (8 : Int) = (beBytes 8 bits, rest) :=
      pyRead_exact _ _ _ (by simp [beBytes_length])
    simp only [NTag.code, NTag.enc]
    rw [skip_tag]
    simp only [h1]
    rfl
  | .byteArrT vs, fuel, rest, hwf, hbig => by
    obtain ⟨f, rfl⟩ : ∃ f, fuel = f + 1 :=
      ⟨fuel - 1, by simp [NTag.big] at hbig; omega⟩
    simp only [NTag.wf, Bool.and_eq_true, decide_eq_true_eq] at hwf
    have h1 : read_int (encIntBE 4 (vs.length : Int) ++
        ((vs.map (encIntBE 1)).flatten ++ rest)) =
        .ok ((vs.length : Int), (vs.map (encIntBE 1)).flatten ++ rest) :=
      readSigned_enc 4 vs.length _ (by norm_num) (by norm_num; omega)
        (by norm_num; omega)
    have h2 : pyRead ((vs.map (encIntBE 1)).flatten ++ rest) ((vs.length : Nat) : Int) =
        ((vs.map (encIntBE 1)).flatten, rest) :=
      pyRead_exact _ _ _ (by rw [flatten_map_enc_length]; push_cast; ring)
    simp only [NTag.code, NTag.enc]
    rw [skip_tag]
    simp only [List.append_assoc, h1, h2, bind_ok]
    rfl
  | .strT bs, fuel, rest, hwf, hbig => by
    obtain ⟨f, rfl⟩ : ∃ f, fuel = f + 1 :=
      ⟨fuel - 1, by simp [NTag.big] at hbig; omega⟩
    simp only [NTag.wf, decide_eq_true_eq] at hwf
    have h1 : read_string (beBytes 2 bs.length ++ (bs ++ rest)) =
        .ok (utf8DecodeReplace bs, rest) := read_string_enc bs rest hwf
    simp only [NTag.code, NTag.enc]
    rw [skip_tag]
    simp only [List.append_assoc, h1, bind_ok]
    rfl
  | .listT ty xs, fuel, rest, hwf, hbig => by
    simp only [NTag.wf, Bool.and_eq_true, decide_eq_true_eq] at hwf
    obtain ⟨⟨⟨hty, hlen⟩, hcodes⟩, hwfxs⟩ := hwf
    obtain ⟨f, rfl⟩ : ∃ f, fuel = f + 1 :=
      ⟨fuel - 1, by simp [NTag.big] at hbig; omega⟩
    have hbigxs : NTagList.big xs ≤ f := by simp [NTag.big] at hbig; omega
    have h1 : read_int (encIntBE 4 (xs.len : Int) ++ (NTagList.enc xs ++ rest)) =
        .ok ((xs.len : Int), NTagList.enc xs ++ rest) :=
      readSigned_enc 4 xs.len _ (by norm_num) (by norm_num; omega)
        (by norm_num; omega)
    have h2 : skip_list_elems f ty ((xs.len : Int)).toNat
        (NTagList.enc xs ++ rest) = .ok rest := by
      rw [show ((xs.len : Int)).toNat = xs.len from by omega]
      exact skip_list_elems_enc xs ty f rest hwfxs hcodes hbigxs
    simp only [NTag.code, NTag.enc, List.cons_append, List.append_assoc]
    rw [skip_tag]
    simp only [read_ubyte_cons, h1, h2, bind_ok]
    rfl
  | .compoundT es, fuel, rest, hwf, hbig => by
    simp only [NTag.wf] at hwf
    obtain ⟨f, rfl⟩ : ∃ f, fuel = f + 1 :=
      ⟨fuel - 1, by simp [NTag.big] at hbig; omega⟩
    have hbige : NEntryList.big es ≤ f := by simp [NTag.big] at hbig; omega
    have h2 := skip_compound_enc es f rest hwf hbige
    simp only [NTag.code, NTag.enc, List.append_assoc, List.singleton_append]
    rw [skip_tag]
    simp only [h2, bind_ok]
    rfl
  | .intArrT vs, fuel, rest, hwf, hbig => by
    obtain ⟨f, rfl⟩ : ∃ f, fuel = f + 1 :=
      ⟨fuel - 1, by simp [NTag.big] at hbig; omega⟩
    simp only [NTag.wf, Bool.and_eq_true, decide_eq_true_eq] at hwf
    have h1 : read_int (encIntBE 4 (vs.length : Int) ++
        ((vs.map (encIntBE 4)).flatten ++ rest)) =
        .ok ((vs.length : Int), (vs.map (encIntBE 4)).flatten ++ rest) :=
      readSigned_enc 4 vs.length _ (by norm_num) (by norm_num; omega)
        (by norm_num; omega)
    have h2 : pyRead ((vs.map (encIntBE 4)).flatten ++ rest)
        ((vs.length : Int) * 4) = ((vs.map (encIntBE 4)).flatten, rest) :=
      pyRead_exact _ _ _ (by rw [flatten_map_enc_length]; push_cast; ring)
    simp only [NTag.code, NTag.enc]
    rw [skip_tag]
    simp only [List.append_assoc, h1, h2, bind_ok]
    rfl
  | .longArrT vs, fuel, rest, hwf, hbig => by
    obtain ⟨f, rfl⟩ : ∃ f, fuel = f + 1 :=
      ⟨fuel - 1, by simp [NTag.big] at hbig; omega⟩
    simp only [NTag.wf, Bool.and_eq_true, decide_eq_true_eq] at hwf
    have h1 : read_int (encIntBE 4 (vs.length : Int) ++
        ((vs.map (encIntBE 8)).flatten ++ rest)) =
        .ok ((vs.length : Int), (vs.map (encIntBE 8)).flatten ++ rest) :=
      readSigned_enc 4 vs.length _ (by norm_num) (by norm_num; omega)
        (by norm_num; omega)
    have h2 : pyRead ((vs.map (encIntBE 8)).flatten ++ rest)
        ((vs.length : Int) * 8) = ((vs.map (encIntBE 8)).flatten, rest) :=
      pyRead_exact _ _ _ (by rw [flatten_map_enc_length]; push_cast; ring)
    simp only [NTag.code, NTag.enc]
    rw [skip_tag]
    simp only [List.append_assoc, h1, h2, bind_ok]
    rfl

/-- `skip_tag` list-element loop consumes exactly the encodings. -/
theorem skip_list_elems_enc : ∀ (xs : NTagList) (ty fuel : Nat) (rest : List Nat),
    NTagList.wf xs = true → NTagList.codesAre ty xs = true →
    NTagList.big xs ≤ fuel →
    skip_list_elems fuel ty xs.len (NTagList.enc xs ++ rest) = .ok rest
  | .nil, ty, fuel, rest, _, _, hbig => by
    obtain ⟨f, rfl⟩ : ∃ f, fuel = f + 1 :=
      ⟨fuel - 1, by simp [NTagList.big] at hbig; omega⟩
    simp only [NTagList.len, NTagList.enc, List.nil_append]
    rw [skip_list_elems]
  | .cons x xs, ty, fuel, rest, hwf, hcodes, hbig => by
    obtain ⟨f, rfl⟩ : ∃ f, fuel = f + 1 :=
      ⟨fuel - 1, by simp [NTagList.big] at hbig; omega⟩
    simp only [NTagList.wf, Bool.and_eq_true] at hwf
    simp only [NTagList.codesAre, Bool.and_eq_true, beq_iff_eq] at hcodes
    have hbx : NTag.big x ≤ f := by simp [NTagList.big] at hbig; omega
    have hbxs : NTagList.big xs ≤ f := by simp [NTagList.big] at hbig; omega
    have h1 : skip_tag f ty (NTag.enc x ++ (NTagList.enc xs ++ rest)) =
        .ok (NTagList.enc xs ++ rest) := by
      rw [← hcodes.1]
      exact skip_tag_enc x f _ hwf.1 hbx
    have h2 := skip_list_elems_enc xs ty f rest hwf.2 hcodes.2 hbxs
    simp only [NTagList.len, NTagList.enc, List.append_assoc]
    rw [show 1 + NTagList.len xs = NTagList.len xs + 1 from by omega]
    rw [skip_list_elems]
    simp only [h1, h2, bind_ok]

/-- `skip_compound` consumes exactly the encoded entries and the End
byte. -/
theorem skip_compound_enc : ∀ (es : NEntryList) (fuel : Nat) (rest : List Nat),
    NEntryList.wf es = true → NEntryList.big es ≤ fuel →
    skip_compound fuel (NEntryList.enc es ++ (0 :: rest)) = .ok rest
  | .nil, fuel, rest, _, hbig => by
    obtain ⟨f, rfl⟩ : ∃ f, fuel = f + 1 :=
      ⟨fuel - 1, by simp [NEntryList.big] at hbig; omega⟩
    simp only [NEntryList.enc, List.nil_append]
    rw [skip_compound]
    rfl
  | .cons name v es, fuel, rest, hwf, hbig => by
    obtain ⟨f, rfl⟩ : ∃ f, fuel = f + 1 :=
      ⟨fuel - 1, by simp [NEntryList.big] at hbig; omega⟩
    simp only [NEntryList.wf, Bool.and_eq_true, decide_eq_true_eq] at hwf
    obtain ⟨⟨hname, hwfv⟩, hwfes⟩ := hwf
    have hbv : NTag.big v ≤ f := by simp [NEntryList.big] at hbig; omega
    have hbes : NEntryList.big es ≤ f := by simp [NEntryList.big] at hbig; omega
    have hstr : read_string (beBytes 2 name.length ++
        (name ++ (NTag.enc v ++ (NEntryList.enc es ++ (0 :: rest))))) =
        .ok (utf8DecodeReplace name,
          NTag.enc v ++ (NEntryList.enc es ++ (0 :: rest))) :=
      read_string_enc name _ hname
    have htag := skip_tag_enc v f (NEntryList.enc es ++ (0 :: rest)) hwfv hbv
    have hrec := skip_compound_enc es f rest hwfes hbes
    have hcode : ¬ NTag.code v = 0 := by cases v <;> simp [NTag.code]
    simp only [NEntryList.enc, List.cons_append, List.append_assoc]
    rw [skip_compound]
    simp only [read_ubyte_cons, bind_ok]
    rw [if_neg hcode]
    simp only [hstr, htag, hrec, bind_ok]

end

/-- Decoding a chain of nested compounds succeeds at every nesting depth,
given fuel linear in the depth; the accumulator is threaded like the
Python `result` dict. -/
theorem read_compound_nest (strict : Bool) : ∀ (k : Nat) (f : Nat)
    (acc : List (List Nat × PyVal)) (rest : List Nat), 3 * k + 1 ≤ f →
    read_compound strict f acc (nestBytes k ++ rest) =
      .ok (nestStep acc k, rest)
  | 0, f, acc, rest, hf => by
    obtain ⟨g, rfl⟩ : ∃ g, f = g + 1 := ⟨f - 1, by omega⟩
    simp only [nestBytes, nestStep, List.cons_append, List.nil_append]
    exact read_compound_end strict g acc rest
  | k + 1, f, acc, rest, hf => by
    obtain ⟨h, rfl⟩ : ∃ h, f = h + 2 := ⟨f - 2, by omega⟩
    have hIH := read_compound_nest strict k h [] (0 :: rest) (by omega)
    have hstr : read_string (0 :: 1 :: 97 :: (nestBytes k ++ (0 :: rest))) =
        .ok ([97], nestBytes k ++ (0 :: rest)) := rfl
    have htag : read_tag strict (h + 1) 10 (nestBytes k ++ (0 :: rest)) =
        .ok (.dict (nestStep [] k), 0 :: rest) := by
      rw [read_tag]
      simp only [hIH, bind_ok]
      rfl
    have hloop := read_compound_end strict h
      (dictInsert acc [97] (.dict (nestStep [] k))) rest
    simp only [nestBytes, nestStep, List.cons_append, List.append_assoc,
      List.singleton_append, List.nil_append]
    rw [read_compound]
    simp only [read_ubyte_cons, bind_ok]
    rw [if_neg (by decide : ¬ (10 : Nat) = 0)]
    simp only [hstr, htag, hloop, bind_ok]

/-- C1: the decoder has no depth guard at all.  For every nesting depth
`n`, `read_root` successfully decodes a document whose root compound nests
`n` further compounds (named "a"), given resources linear in `n`; no
`DepthExceeded` failure exists anywhere in the code, which recurses once
per nesting level and in CPython aborts with `RecursionError` (a host
stack guard) on deep inputs. -/
theorem C1_decode_succeeds_at_any_depth (n : Nat) :
    read_root true (3 * n + 4) (10 :: 0 :: 0 :: nestBytes n) =
      .ok (.dict [([], .dict (nestStep [] n))]) := by
  have hnest : read_compound true (3 * n + 3) [] (nestBytes n ++ []) =
      .ok (nestStep [] n, []) := read_compound_nest true n _ [] [] (by omega)
  have htag : read_tag true (3 * n + 4) 10 (nestBytes n ++ []) =
      .ok (.dict (nestStep [] n), []) := by
    rw [show 3 * n + 4 = (3 * n + 3) + 1 from rfl, read_tag]
    simp only [hnest, bind_ok]
    rfl
  unfold read_root
  simp only [read_ubyte_cons, bind_ok]
  rw [if_neg (by decide : ¬ (10 : Nat) = 0)]
  have hstr : read_string (0 :: 0 :: nestBytes n) = .ok ([], nestBytes n) := rfl
  simp only [hstr, bind_ok]
  rw [show nestBytes n = nestBytes n ++ [] from (List.append_nil _).symm]
  simp only [htag, bind_ok]

/-- C2: a negative signed 32-bit count is not rejected.  For each of
ByteArray (7), List (9), IntArray (11) and LongArray (12), a count field of
0xFFFFFFFF (the value -1) makes `complete_mcc_reader`'s `read_tag` return
an empty Python list and continue, because `range(-1)` is empty; no
`CorruptLength` (or any other) failure occurs. -/
theorem C2_negative_count_yields_empty_list :
    read_tag true 9 7 [255, 255, 255, 255, 9, 9] = .ok (.list [], [9, 9]) ∧
    read_tag true 9 9 [1, 255, 255, 255, 255, 9, 9] = .ok (.list [], [9, 9]) ∧
    read_tag true 9 11 [255, 255, 255, 255] = .ok (.list [], []) ∧
    read_tag true 9 12 [255, 255, 255, 255] = .ok (.list [], []) :=
  ⟨rfl, rfl, rfl, rfl⟩

/-- C3: a String tag truncated mid-payload does not fail.  On the buffer
08 00 00 00 05 61 62 — a root String named "" declaring length 5 with only
2 payload bytes — `read_root` returns the truncated string "ab" (code
points 97, 98), because `BytesIO.read(5)` silently returns the 2 available
bytes; no `UnexpectedEnd`-style failure occurs. -/
theorem C3_truncated_string_returned :
    read_root true 9 [8, 0, 0, 0, 5, 97, 98] =
      .ok (.dict [([], .str [97, 98])]) := rfl

/-- C4: dispatch on a tag-type byte outside 0..12.  `complete_mcc_reader`'s
`read_tag` raises `ValueError` identifying the code, but
`snowball_timeline`'s `read_tag` has no `else` branch: it falls through and
returns `None`, silently accepting the unknown code with a default value
and consuming nothing. -/
theorem C4_unknown_tag_dispatch (t : Nat) (s : List Nat) (fuel : Nat)
    (h : 13 ≤ t) :
    read_tag true (fuel + 1) t s = .error (.unknownTag t) ∧
    read_tag false (fuel + 1) t s = .ok (.none, s) := by
  constructor <;>
  · rw [read_tag]
    rw [if_neg (by omega : ¬ t = 0), if_neg (by omega : ¬ t = 1),
      if_neg (by omega : ¬ t = 2), if_neg (by omega : ¬ t = 3),
      if_neg (by omega : ¬ t = 4), if_neg (by omega : ¬ t = 5),
      if_neg (by omega : ¬ t = 6), if_neg (by omega : ¬ t = 7),
      if_neg (by omega : ¬ t = 8), if_neg (by omega : ¬ t = 9),
      if_neg (by omega : ¬ t = 10), if_neg (by omega : ¬ t = 11),
      if_neg (by omega : ¬ t = 12)]
    rfl

/-- Witness for C4 at the concrete tag-type byte 13 on the empty stream. -/
theorem C4_unknown_tag_dispatch_witness :
    read_tag true 1 13 [] = .error (.unknownTag 13) ∧
    read_tag false 1 13 [] = .ok (.none, []) :=
  C4_unknown_tag_dispatch 13 [] 0 (by decide)

/-- C5: on a well-formed compound payload (encoded entries followed by the
End byte), `read_compound` stops exactly at the End byte, and produces the
dict obtained by inserting each decoded (name, value) pair in read order
via Python dict assignment — so a duplicated name keeps its last value. -/
theorem C5_compound_reads_entries_in_order (strict : Bool) (es : NEntryList)
    (fuel : Nat) (rest : List Nat) (hwf : NEntryList.wf es = true)
    (hfuel : NEntryList.big es ≤ fuel) :
    read_compound strict fuel [] (NEntryList.enc es ++ (0 :: rest)) =
      .ok (NEntryList.val [] es, rest) :=
  read_compound_enc strict es fuel [] rest hwf hfuel

/-- Witness for C5: a compound with the duplicated name "a" mapped first to
1 then to 2 decodes to a dict holding 2 — the last occurrence wins — and
the bytes after the End marker are untouched. -/
theorem C5_compound_reads_entries_in_order_witness :
    read_compound true 3 []
      (NEntryList.enc (.cons [97] (.byteT 1) (.cons [97] (.byteT 2) .nil)) ++
        (0 :: [5])) = .ok ([([97], PyVal.int 2)], [5]) :=
  C5_compound_reads_entries_in_order true
    (.cons [97] (.byteT 1) (.cons [97] (.byteT 2) .nil)) 3 [5]
    (by decide) (by decide)

/-- C6: on a well-formed list payload — element-type byte, signed 32-bit
count, then that many homogeneous elements — `read_tag` decodes exactly
the declared count of elements in order; a count of 0 yields the empty
sequence for every element-type byte (End included), since the
well-formedness condition on the empty element sequence restricts nothing
but `ty < 256`. -/
theorem C6_list_reads_count_elements (strict : Bool) (ty : Nat)
    (xs : NTagList) (fuel : Nat) (rest : List Nat)
    (hwf : NTag.wf (.listT ty xs) = true)
    (hfuel : NTag.big (.listT ty xs) ≤ fuel) :
    read_tag strict fuel 9 (NTag.enc (.listT ty xs) ++ rest) =
      .ok (.list (NTagList.val xs), rest) :=
  read_tag_enc strict (.listT ty xs) fuel rest hwf hfuel

/-- Witness for C6: the empty list with declared element type End
(bytes 00 00 00 00 00) decodes to the empty sequence. -/
theorem C6_list_reads_count_elements_witness :
    read_tag true 3 9 (NTag.enc (.listT 0 .nil) ++ [5]) =
      .ok (.list [], [5]) :=
  C6_list_reads_count_elements true 0 .nil 3 [5] (by decide) (by decide)

/-- C7: `read_string` reads an unsigned 16-bit big-endian length prefix,
then exactly that many raw bytes when the payload is present, and decodes
them with UTF-8 replacement (`utf8DecodeReplace` is total, so an invalid
byte sequence becomes U+FFFD instead of an error). -/
theorem C7_string_reads_len_bytes_with_replacement (bs rest : List Nat)
    (h : bs.length < 2 ^ 16) :
    read_string (beBytes 2 bs.length ++ (bs ++ rest)) =
      .ok (utf8DecodeReplace bs, rest) :=
  read_string_enc bs rest h

/-- Witness for C7: length prefix 2 followed by the invalid UTF-8 bytes
FF 61 decodes to U+FFFD followed by "a", consuming exactly 2 bytes. -/
theorem C7_string_reads_len_bytes_with_replacement_witness :
    read_string [0, 2, 255, 97] = .ok ([65533, 97], []) :=
  C7_string_reads_len_bytes_with_replacement [255, 97] [] (by norm_num)

/-- C8: the decode is deterministic.  Each call constructs its own reader
over the buffer (`BytesIO(data)` in `__init__`), embedded here as the pure
function `read_root` of the buffer alone, so two decodes of the same bytes
yield the same result. -/
theorem C8_decode_deterministic (strict : Bool) (fuel : Nat) (B : List Nat)
    (r₁ r₂ : Except PyErr PyVal) (h₁ : read_root strict fuel B = r₁)
    (h₂ : read_root strict fuel B = r₂) : r₁ = r₂ :=
  h₁.symm.trans h₂

/-- Witness for C8 on the one-byte buffer 00 (the empty document). -/
theorem C8_decode_deterministic_witness :
    (Except.ok PyVal.none : Except PyErr PyVal) = Except.ok PyVal.none :=
  C8_decode_deterministic true 1 [0] (Except.ok PyVal.none)
    (Except.ok PyVal.none) rfl rfl

/-- C9: a List with element type End (0) and count 2 (bytes
00 00 00 00 02) does not fail: `read_tag 0` returns `None` without
consuming input, so the decoder returns the sequence [None, None] of
guessed default elements and leaves the stream after the count; no
`CorruptLength` failure occurs. -/
theorem C9_end_list_with_positive_count_yields_nones :
    read_tag true 9 9 [0, 0, 0, 0, 2, 5, 5] =
      .ok (.list [.none, .none], [5, 5]) := rfl

/-- C10 (amended): on every buffer that begins with the encoding of a
well-formed payload — in particular, every array and list count
non-negative — `skip_tag` and `read_tag` consume exactly the same bytes:
both leave the stream at the end of the encoding. -/
theorem C10_skip_matches_read_on_wf_payloads (strict : Bool) (t : NTag)
    (fuel : Nat) (rest : List Nat) (hwf : NTag.wf t = true)
    (hfuel : NTag.big t ≤ fuel) :
    skip_tag fuel t.code (t.enc ++ rest) = .ok rest ∧
    read_tag strict fuel t.code (t.enc ++ rest) = .ok (t.val, rest) :=
  ⟨skip_tag_enc t fuel rest hwf hfuel,
    read_tag_enc strict t fuel rest hwf hfuel⟩

/-- Witness for C10 on the compound 01 00 01 61 07 00 (one Byte entry
"a" = 7) followed by one extra byte: both skip and read stop before the
extra byte. -/
theorem C10_skip_matches_read_on_wf_payloads_witness :
    skip_tag 3 10 (NTag.enc (.compoundT (.cons [97] (.byteT 7) .nil)) ++ [9]) =
      .ok [9] ∧
    read_tag true 3 10
      (NTag.enc (.compoundT (.cons [97] (.byteT 7) .nil)) ++ [9]) =
      .ok (.dict [([97], PyVal.int 7)], [9]) :=
  C10_skip_matches_read_on_wf_payloads true
    (.compoundT (.cons [97] (.byteT 7) .nil)) 3 [9] (by decide) (by decide)

/-- C10 counterexample to the claim as stated: on the ByteArray payload
FF FF FF FF 01 02 03 (count -1), `read_tag` succeeds consuming only the 4
count bytes (leaving 01 02 03), while `skip_tag` executes
`stream.read(-1)` which reads to the end of the stream (leaving nothing):
the two consume different numbers of bytes on the same buffer. -/
theorem C10_skip_read_divergence :
    read_tag true 9 7 [255, 255, 255, 255, 1, 2, 3] =
      .ok (.list [], [1, 2, 3]) ∧
    skip_tag 9 7 [255, 255, 255, 255, 1, 2, 3] = .ok [] ∧
    ([1, 2, 3] : List Nat) ≠ [] :=
  ⟨rfl, rfl, by decide⟩
